import Mathlib

/-!
Verification of the aipriceaction-data incremental synchronization engine.

This file gives a shallow embedding, in Lean 4, of the core functions of the
repository (src/main.py, src/main_get_ticker_data.py, src/docs/vci.py,
src/docs/tcbs.py) and proves or refutes the frozen behavioural claims about
them.

Modelling conventions:
- A pandas DataFrame of OHLCV rows is a Lean list of Row values, in frame
  order.  Timestamps are integers (days for daily data); prices are rationals
  (Python floats are modelled by exact rational arithmetic, which agrees with
  the source away from floating-point ties).
- Functions performing I/O are embedded by passing the result of the external
  effect (the fetched frame, the HTTP attempt outcomes, the wall-clock time)
  as an explicit argument and returning the new state.
- pandas sort_values is modelled by insertion sort keyed on the time column.
  The pandas default quicksort is unstable, so the order it gives rows with
  equal keys is implementation-defined; the model keeps them in input order.
  Every theorem below that asserts frame equality of a sorted output
  therefore carries duplicate-free-timestamp hypotheses, under which the
  sorted lists are tie-free and every total sort implementation produces
  the same frame; the remaining uses are order-insensitive (permutation,
  membership and no-duplicate conclusions) or concrete tie-free inputs.
- Python round / pandas Series.round are modelled by rational rounding to a
  fixed number of decimals (half-up; NumPy uses half-to-even, which agrees
  away from ties, and every concrete input used below avoids ties).
-/

namespace AIPriceAction

/-- One OHLCV row: the TimeSeriesRow of the data model.  Field opn is the
column named open in the source (open is a Lean keyword). -/
structure Row where
  ticker : String
  time : Int
  opn : ℚ
  high : ℚ
  low : ℚ
  close : ℚ
  volume : Int
deriving DecidableEq, Repr

/-- Ordering of rows by the time column, the sort key used by
sort_values in the source. -/
def timeLE (a b : Row) : Prop := a.time ≤ b.time

instance : DecidableRel timeLE := fun a b => inferInstanceAs (Decidable (a.time ≤ b.time))

instance : IsTotal Row timeLE := ⟨fun a b => Int.le_total a.time b.time⟩

instance : IsTrans Row timeLE := ⟨fun _ _ _ hab hbc => le_trans hab hbc⟩

/-- Model of df.sort_values keyed on the time column.  Insertion sort is
stable while the pandas default quicksort is not; the two agree on every
list without duplicate time keys, and no theorem below relies on the order
of equal-time rows (see the module header). -/
def sortByTime (l : List Row) : List Row := l.insertionSort timeLE

/-- Model of the max over the time column of a frame: the largest timestamp.
Only used on non-empty frames; 0 is a dummy value for the empty frame. -/
def latestDate (l : List Row) : Int := ((l.map Row.time).maximum).unbot' 0

/-- The local same_date_rows of the merge: fresh rows dated exactly d. -/
def sameDateRows (new_df : List Row) (d : Int) : List Row :=
  new_df.filter (fun r => r.time = d)

/-- The local new_rows of the merge: fresh rows dated at or after d. -/
def rowsFrom (new_df : List Row) (d : Int) : List Row :=
  new_df.filter (fun r => d ≤ r.time)

/-- The state of existing_df after the conditional removal step of the
merge: when the fresh frame revises the last archived date d, every
archive row dated d is dropped. -/
def existingTrimmed (existing_df new_df : List Row) (d : Int) : List Row :=
  if (sameDateRows new_df d).isEmpty then existing_df
  else existing_df.filter (fun r => r.time ≠ d)

/-- Translation of update_last_row_and_append_new_data (identical in
src/main.py lines 164-208 and src/main_get_ticker_data.py lines 426-476):
drop the archive rows sharing the last archived date when the fresh frame
revises that date, then append every fresh row dated at or after it and
re-sort by time.  The Python locals same_date_rows, the trimmed
existing_df and new_rows are the named helpers above. -/
def update_last_row_and_append_new_data (existing_df new_df : List Row) : List Row :=
  if existing_df.isEmpty then new_df
  else
    let latest_date := latestDate existing_df
    if (rowsFrom new_df latest_date).isEmpty then
      existingTrimmed existing_df new_df latest_date
    else
      sortByTime (existingTrimmed existing_df new_df latest_date ++
        rowsFrom new_df latest_date)

/-- The timestamps of a frame are pairwise distinct (the archive uniqueness
invariant of the data model). -/
def nodupTimes (l : List Row) : Prop := (l.map Row.time).Nodup

instance (l : List Row) : Decidable (nodupTimes l) :=
  inferInstanceAs (Decidable (l.map Row.time).Nodup)

/-! ### Dividend detection, src/main.py check_for_dividend_simple -/

/-- The comparison window of check_for_dividend_simple: rows dated between
two weeks ago and one week ago, relative to the current date now (times are
in days). -/
def compareWindow (now : Int) (r : Row) : Bool :=
  decide (now - 14 ≤ r.time ∧ r.time ≤ now - 7)

/-- Model of pd.merge of api_compare with existing_compare on time: the inner
join on the time column, in left-frame key order. -/
def innerJoinTime (a e : List Row) : List (Row × Row) :=
  (a.map (fun ra => (e.filter (fun re => re.time = ra.time)).map (fun re => (ra, re)))).flatten

/-- Translation of check_for_dividend_simple (src/main.py lines 52-134, and
identically src/main_get_ticker_data.py lines 122-216).  The fetched
last-30-day frame api_df is passed as an argument (none models a failed
fetch); the stored frame is existing_df; now is the current date.  Returns
the is_dividend verdict. -/
def check_for_dividend_simple (fileExists : Bool) (api_df : Option (List Row))
    (existing_df : List Row) (now : Int) : Bool :=
  if !fileExists then false
  else
    match api_df with
    | none => false
    | some api =>
      if api.isEmpty then false
      else
        let api_compare := api.filter (compareWindow now)
        let existing_compare := existing_df.filter (compareWindow now)
        if api_compare.length < 3 ∨ existing_compare.length < 3 then false
        else
          let merged := innerJoinTime api_compare existing_compare
          if merged.length < 3 then false
          else
            let price_diffs :=
              (merged.filter (fun pr => decide (0 < pr.2.close ∧ 0 < pr.1.close))).map
                (fun pr => pr.2.close / pr.1.close)
            if price_diffs.length < 3 then false
            else decide (51 / 50 < price_diffs.sum / (price_diffs.length : ℚ))

/-! ### Resume-mode dividend detection and merge,
src/main_get_ticker_data.py smart_dividend_check_and_merge -/

/-- Dummy row standing for the unreachable iloc[0] of an empty selection. -/
def defaultRow : Row := ⟨"", 0, 0, 0, 0, 0, 0⟩

/-- Model of recent_dates.intersection(existing_dates): the distinct dates
shared by the two frames.  Python iterates the set in an unspecified hash
order; the model fixes first-appearance order in the recent frame.  The
theorems below do not depend on the order: their inputs make every
overlapping date behave alike. -/
def overlappingDates (recent existing : List Row) : List Int :=
  ((recent.map Row.time).dedup).filter (fun d => d ∈ existing.map Row.time)

/-- Model of selecting the rows dated d and taking iloc[0]: the first row of
the frame dated d. -/
def rowAtDate (l : List Row) (d : Int) : Row :=
  ((l.filter (fun r => r.time = d)).head?).getD defaultRow

/-- The dividend-detection loop of smart_dividend_check_and_merge
(src/main_get_ticker_data.py lines 751-772): with at least 2 overlapping
dates, up to 3 of them are checked and the verdict fires as soon as one has
archived close / fresh close above 1.02. -/
def smartDividendDetected (existing_df recent_data : List Row) : Bool :=
  let ov := overlappingDates recent_data existing_df
  if 2 ≤ ov.length then
    (ov.take 3).any (fun d =>
      let recent_row := rowAtDate recent_data d
      let existing_row := rowAtDate existing_df d
      decide (0 < existing_row.close ∧ 0 < recent_row.close ∧
        51 / 50 < existing_row.close / recent_row.close))
  else false

/-- Translation of smart_dividend_check_and_merge (src/main_get_ticker_data.py
lines 726-788).  recent_data is the batch-fetched recent frame (none models
a failed fetch); full_data is the result of the full-history re-download
performed when a dividend is detected (none models download_full_data
returning None).  Returns the frame that the caller will persist. -/
def smart_dividend_check_and_merge (existing_df : List Row)
    (recent_data : Option (List Row)) (full_data : Option (List Row)) : List Row :=
  match recent_data with
  | none => existing_df
  | some recent =>
    if recent.isEmpty then existing_df
    else if smartDividendDetected existing_df recent then
      match full_data with
      | some fd => if fd.isEmpty then existing_df else fd
      | none => existing_df
    else update_last_row_and_append_new_data existing_df recent

/-! ### The daily sync path of src/main.py -/

/-- Translation of download_full_data (src/main.py lines 136-162): on a
successful non-empty fetch the frame gets the ticker column inserted and is
sorted by time; an empty frame or an exception yields None. -/
def download_full_data_main (ticker : String) (fetch : Option (List Row)) :
    Option (List Row) :=
  match fetch with
  | none => none
  | some df =>
    if df.isEmpty then none
    else some (sortByTime (df.map (fun r => { r with ticker := ticker })))

/-- Translation of download_stock_data (src/main.py lines 232-288).
dividend is the result of check_for_dividend_simple; fullFetch and incrFetch
are the API results of the full-history and incremental downloads
(none models an exception); lastDateLeToday models the guard
last_date_str <= today_str. -/
def download_stock_data (ticker : String) (fileExists dividend : Bool)
    (existing_df : List Row) (fullFetch incrFetch : Option (List Row))
    (lastDateLeToday : Bool) : Option (List Row) :=
  if fileExists then
    if dividend then download_full_data_main ticker fullFetch
    else if lastDateLeToday then
      match incrFetch with
      | none => some existing_df
      | some newDf =>
        if newDf.isEmpty then some existing_df
        else some (update_last_row_and_append_new_data existing_df
          (newDf.map (fun r => { r with ticker := ticker })))
    else some existing_df
  else download_full_data_main ticker fullFetch

/-- The persistence step of main (src/main.py lines 626-634, and likewise
src/main_get_ticker_data.py lines 969-971): the archive file is overwritten
only when the produced frame is neither None nor empty; otherwise the stored
content is untouched. -/
def persist_step (old : List Row) (result : Option (List Row)) : List Row :=
  match result with
  | none => old
  | some df => if df.isEmpty then old else df

/-! ### Price normalization, src/main_get_ticker_data.py normalize_price_data -/

/-- The market indices that are never rescaled. -/
def market_indices : List String := ["VNINDEX", "HNXINDEX", "UPCOMINDEX"]

/-- Rational rounding to p decimal places, the model of Series.round(p). -/
def roundTo (q : ℚ) (p : ℕ) : ℚ := ((round (q * 10 ^ p) : ℤ) : ℚ) / 10 ^ p

/-- One price cell of normalize_price_data: divide by the 1000 scale factor,
then round when a precision is configured (precision_decimals is None when
the pipeline is run with --precision 0). -/
def scalePrice (prec : Option ℕ) (x : ℚ) : ℚ :=
  match prec with
  | some p => roundTo (x / 1000) p
  | none => x / 1000

/-- Translation of normalize_price_data (src/main_get_ticker_data.py lines
615-662): market indices pass through unscaled; every other symbol has its
open, high, low, close columns divided by 1000 and rounded.  The source
works on df.copy(), never mutating its argument, which the pure model
reflects. -/
def normalize_price_data (prec : Option ℕ) (df : List Row) (ticker : String) :
    List Row :=
  if df.isEmpty then df
  else if ticker.toUpper ∈ market_indices then df
  else df.map (fun r =>
    { r with
      opn := scalePrice prec r.opn
      high := scalePrice prec r.high
      low := scalePrice prec r.low
      close := scalePrice prec r.close })

/-! ### Rate limiter, src/docs/vci.py and src/docs/tcbs.py _enforce_rate_limit -/

/-- One call of _enforce_rate_limit (identical in VCIClient, src/docs/vci.py
lines 100-116, and TCBSClient, src/docs/tcbs.py lines 148-164).  stamps is
self.request_timestamps, now the wall-clock time.time() at entry, N the
configured rate_limit_per_minute.  Returns the updated timestamp list and
the wall-clock moment at which the permit is actually granted (entry time
plus the sleep of wait + 0.1 seconds when the window is full).  Note the
source appends the pre-sleep value current_time, not the grant moment. -/
def enforce_rate_limit (N : ℕ) (stamps : List ℚ) (now : ℚ) : List ℚ × ℚ :=
  let ts := stamps.filter (fun t => decide (now - t < 60))
  let grant :=
    if N ≤ ts.length then
      let oldest := (ts.minimum).untop' 0
      let wait := 60 - (now - oldest)
      if 0 < wait then now + wait + 1 / 10 else now
    else now
  (ts ++ [now], grant)

/-- Sequential execution of enforce_rate_limit: each delay is the idle time
between the previous grant and the next call's entry.  Returns the grant
times in order. -/
def limiter_go (N : ℕ) (stamps : List ℚ) (clock : ℚ) : List ℚ → List ℚ
  | [] => []
  | d :: rest =>
    let now := clock + d
    let st := enforce_rate_limit N stamps now
    st.2 :: limiter_go N st.1 st.2 rest

/-- Grant times of a run of back-to-back calls against one client instance,
starting at wall-clock 0. -/
def limiter_grants (N : ℕ) (delays : List ℚ) : List ℚ :=
  limiter_go N [] 0 delays

/-! ### Batch scheduling, src/main_get_ticker_data.py main and the chunked
downloaders -/

/-- Whether a population of symbols is fetched through the multi-symbol
batch endpoint or through per-symbol requests. -/
inductive EndpointKind
  | batch
  | perSymbol
deriving DecidableEq, Repr

/-- Request shape of download_full_data (src/main_get_ticker_data.py lines
379-424): a single per-symbol request for daily data, yearly chunks for 1H,
monthly chunks for 1m. -/
inductive FetchPlan
  | singleRequest
  | yearlyChunks
  | monthlyChunks
deriving DecidableEq, Repr

/-- The routing of download_full_data by interval. -/
def download_full_data_plan (interval : String) : FetchPlan :=
  if interval = "1H" then .yearlyChunks
  else if interval = "1m" then .monthlyChunks
  else .singleRequest

/-- Endpoint choice of main for the full-history population
(src/main_get_ticker_data.py lines 916-924): individual requests when the
configured range spans more than 2 years or the interval is sub-daily,
otherwise the VCI batch endpoint. -/
def full_history_endpoint (interval : String) (yearsSpan : ℚ) : EndpointKind :=
  if 2 < yearsSpan ∨ interval ≠ "1D" then .perSymbol else .batch

/-- Endpoint choice of main for the resume population (lines 926-932):
batch only under daily granularity. -/
def resume_endpoint (interval : String) : EndpointKind :=
  if interval = "1D" then .batch else .perSymbol

/-- A calendar date, for the chunk windows of the sub-daily downloaders. -/
structure Date where
  year : Int
  month : Int
  day : Int
deriving DecidableEq, Repr

/-- Integer range a..b inclusive. -/
def intRange (a b : Int) : List Int :=
  (List.range (b - a + 1).toNat).map (fun i => a + (i : Int))

/-- The yearly windows of download_hourly_chunks (src/main_get_ticker_data.py
lines 218-289): one chunk per calendar year of the range, the first and
last truncated to the requested dates. -/
def hourly_chunk_windows (startDate endDate : Date) : List (Date × Date) :=
  (intRange startDate.year endDate.year).map (fun y =>
    let ys := if y = startDate.year then startDate else ⟨y, 1, 1⟩
    let ye := if y = endDate.year then endDate else ⟨y, 12, 31⟩
    (ys, ye))

/-- Zero-based month counter of a date, the loop variable of the monthly
chunker. -/
def monthIndex (d : Date) : Int := d.year * 12 + (d.month - 1)

/-- Gregorian leap year. -/
def isLeap (y : Int) : Bool := decide ((y % 4 = 0 ∧ y % 100 ≠ 0) ∨ y % 400 = 0)

/-- Number of days of a month, the value of next_month - timedelta(days=1). -/
def daysInMonth (y m : Int) : Int :=
  if m = 2 then (if isLeap y then 29 else 28)
  else if m = 4 ∨ m = 6 ∨ m = 9 ∨ m = 11 then 30
  else 31

/-- The monthly windows of download_minute_chunks (src/main_get_ticker_data.py
lines 291-377): the while loop walks month by month from the start month to
the end month; here it is rendered as a map over the month counters, one
chunk per calendar month, the first and last truncated to the requested
dates. -/
def minute_chunk_windows (startDate endDate : Date) : List (Date × Date) :=
  (intRange (monthIndex startDate) (monthIndex endDate)).map (fun i =>
    let y := i / 12
    let m := i % 12 + 1
    let ms := if i = monthIndex startDate then startDate else ⟨y, m, 1⟩
    let me := if i = monthIndex endDate then endDate else ⟨y, m, daysInMonth y m⟩
    (ms, me))

/-! ### Resilient fetch, src/docs/vci.py _make_request and get_history

The 200-payload is modelled as an untyped JSON value, so that the dynamic
typing of the Python parser is visible: operations that raise in Python
(membership tests on non-containers, len of non-sized values, float of
None, int of a non-numeric string, subscripting a number) are embedded as
Except errors.  Date arguments stay strings and go through a model of
datetime.strptime with the %Y-%m-%d format, which raises ValueError on
malformed input. -/

theorem latestDate_spec {A : List Row} (h : A ≠ []) :
    latestDate A ∈ A.map Row.time ∧ ∀ a ∈ A, a.time ≤ latestDate A := by
  have hne : A.map Row.time ≠ [] := fun hc => h (List.map_eq_nil_iff.mp hc)
  cases hmax : (A.map Row.time).maximum with
  | bot => exact absurd (List.maximum_eq_bot.mp hmax) hne
  | coe m =>
    have hspec := List.maximum_eq_coe_iff.mp hmax
    have hval : latestDate A = m := by simp [latestDate, hmax]
    refine ⟨hval ▸ hspec.1, fun a ha => ?_⟩
    have hmem : a.time ∈ A.map Row.time := List.mem_map_of_mem Row.time ha
    exact hval ▸ hspec.2 _ hmem

theorem latestDate_eq {l : List Row} {m : Int} (h1 : m ∈ l.map Row.time)
    (h2 : ∀ a ∈ l, a.time ≤ m) : latestDate l = m := by
  have : (l.map Row.time).maximum = (m : WithBot Int) :=
    List.maximum_eq_coe_iff.mpr ⟨h1, by
      intro x hx
      obtain ⟨a, ha, rfl⟩ := List.mem_map.mp hx
      exact h2 a ha⟩
  simp [latestDate, this]

theorem time_le_latestDate {A : List Row} (h : A ≠ []) {a : Row} (ha : a ∈ A) :
    a.time ≤ latestDate A := (latestDate_spec h).2 a ha

theorem orderedInsert_eq_cons {a : Row} {t : List Row} (h : ∀ y ∈ t, timeLE a y) :
    t.orderedInsert timeLE a = a :: t := by
  cases t with
  | nil => rfl
  | cons y t' => exact List.orderedInsert_of_le (r := timeLE) t' (h y (List.mem_cons_self _ _))

theorem orderedInsert_filter (p : Row → Bool) (a : Row) :
    ∀ s : List Row, s.Sorted timeLE →
      (s.orderedInsert timeLE a).filter p =
        if p a then (s.filter p).orderedInsert timeLE a else s.filter p := by
  intro s
  induction s with
  | nil =>
    intro _
    by_cases hpa : p a <;> simp [List.orderedInsert, hpa]
  | cons x s' ih =>
    intro hs
    have hs' : s'.Sorted timeLE := hs.of_cons
    have hhead : ∀ b ∈ s', timeLE x b := (List.sorted_cons.mp hs).1
    by_cases hax : timeLE a x
    · rw [List.orderedInsert, if_pos hax]
      by_cases hpa : p a
      · rw [List.filter_cons_of_pos hpa, if_pos hpa]
        have hall : ∀ y ∈ (x :: s').filter p, timeLE a y := by
          intro y hy
          have hy' : y ∈ x :: s' := List.mem_of_mem_filter hy
          rcases List.mem_cons.mp hy' with rfl | hy''
          · exact hax
          · exact le_trans hax (hhead y hy'')
        rw [orderedInsert_eq_cons hall]
      · rw [List.filter_cons_of_neg hpa, if_neg hpa]
    · rw [List.orderedInsert, if_neg hax]
      by_cases hpx : p x
      · rw [List.filter_cons_of_pos hpx, List.filter_cons_of_pos hpx, ih hs']
        by_cases hpa : p a
        · rw [if_pos hpa, if_pos hpa, List.orderedInsert, if_neg hax]
        · rw [if_neg hpa, if_neg hpa]
      · rw [List.filter_cons_of_neg hpx, List.filter_cons_of_neg hpx, ih hs']

theorem insertionSort_filter (p : Row → Bool) :
    ∀ l : List Row, (l.insertionSort timeLE).filter p =
      (l.filter p).insertionSort timeLE := by
  intro l
  induction l with
  | nil => rfl
  | cons a l ih =>
    rw [List.insertionSort,
      orderedInsert_filter p a _ (List.sorted_insertionSort timeLE l), ih]
    by_cases hpa : p a
    · rw [if_pos hpa, List.filter_cons_of_pos hpa, List.insertionSort]
    · rw [if_neg hpa, List.filter_cons_of_neg hpa]

theorem sorted_filter_split (m : Int) :
    ∀ l : List Row, l.Sorted timeLE → (∀ x ∈ l, x.time ≤ m) →
      l = l.filter (fun r => r.time ≠ m) ++ l.filter (fun r => r.time = m) := by
  intro l
  induction l with
  | nil => intro _ _; rfl
  | cons a l ih =>
    intro hs hub
    have hs' : l.Sorted timeLE := hs.of_cons
    have hhead : ∀ b ∈ l, timeLE a b := (List.sorted_cons.mp hs).1
    by_cases ham : a.time = m
    · have hall : ∀ x ∈ l, x.time = m := by
        intro x hx
        have h1 : a.time ≤ x.time := hhead x hx
        have h2 : x.time ≤ m := hub x (List.mem_cons_of_mem a hx)
        omega
      have hne : (a :: l).filter (fun r => r.time ≠ m) = [] := by
        rw [List.filter_eq_nil_iff]
        intro x hx
        rcases List.mem_cons.mp hx with rfl | hx'
        · simp [ham]
        · simp [hall x hx']
      have heq : (a :: l).filter (fun r => r.time = m) = a :: l := by
        rw [List.filter_eq_self]
        intro x hx
        rcases List.mem_cons.mp hx with rfl | hx'
        · simp [ham]
        · simp [hall x hx']
      rw [hne, heq, List.nil_append]
    · have hub' : ∀ x ∈ l, x.time ≤ m := fun x hx => hub x (List.mem_cons_of_mem a hx)
      have hstep := ih hs' hub'
      rw [List.filter_cons_of_pos (by simpa using ham),
        List.filter_cons_of_neg (by simpa using ham), List.cons_append]
      exact congrArg (a :: ·) hstep

theorem nodupTimes_filter {l : List Row} (p : Row → Bool) (h : nodupTimes l) :
    nodupTimes (l.filter p) :=
  ((List.filter_sublist l).map Row.time).nodup h

theorem nodupTimes_of_perm {l l' : List Row} (hp : l.Perm l') :
    nodupTimes l ↔ nodupTimes l' := (hp.map Row.time).nodup_iff

theorem sortByTime_perm (l : List Row) : (sortByTime l).Perm l :=
  List.perm_insertionSort timeLE l

theorem sortByTime_sorted (l : List Row) : (sortByTime l).Sorted timeLE :=
  List.sorted_insertionSort timeLE l

theorem sortByTime_eq_of_sorted {l : List Row} (h : l.Sorted timeLE) :
    sortByTime l = l := h.insertionSort_eq

theorem sorted_of_const_time {m : Int} :
    ∀ {l : List Row}, (∀ x ∈ l, x.time = m) → l.Sorted timeLE := by
  intro l
  induction l with
  | nil => intro _; exact List.sorted_nil
  | cons a l ih =>
    intro h
    refine List.sorted_cons.mpr ⟨fun b hb => ?_, ih fun x hx => h x (List.mem_cons_of_mem a hx)⟩
    have ha := h a (List.mem_cons_self a l)
    have hb' := h b (List.mem_cons_of_mem a hb)
    simp [timeLE, ha, hb']

theorem mem_sameDateRows {B : List Row} {d : Int} {r : Row} :
    r ∈ sameDateRows B d ↔ r ∈ B ∧ r.time = d := by
  simp [sameDateRows]

theorem mem_rowsFrom {B : List Row} {d : Int} {r : Row} :
    r ∈ rowsFrom B d ↔ r ∈ B ∧ d ≤ r.time := by
  simp [rowsFrom]

theorem sameDateRows_eq_nil_of_rowsFrom {B : List Row} {d : Int}
    (h : rowsFrom B d = []) : sameDateRows B d = [] := by
  rw [List.eq_nil_iff_forall_not_mem] at h ⊢
  intro r hr
  rcases mem_sameDateRows.mp hr with ⟨hrB, hrd⟩
  exact h r (mem_rowsFrom.mpr ⟨hrB, le_of_eq hrd.symm⟩)

theorem mem_existingTrimmed {A B : List Row} {d : Int} {r : Row}
    (h : r ∈ existingTrimmed A B d) : r ∈ A := by
  unfold existingTrimmed at h
  split_ifs at h
  · exact h
  · exact List.mem_of_mem_filter h

theorem merge_eq_of_rowsFrom_nil {A B : List Row} (hA : A ≠ [])
    (hnr : rowsFrom B (latestDate A) = []) :
    update_last_row_and_append_new_data A B = A := by
  have hAe : ¬ (A.isEmpty = true) := by simp [List.isEmpty_iff, hA]
  have hsd := sameDateRows_eq_nil_of_rowsFrom hnr
  unfold update_last_row_and_append_new_data existingTrimmed
  rw [if_neg hAe, if_pos (by simp [hnr]), if_pos (by simp [hsd])]

theorem merge_eq_of_rowsFrom_ne_nil {A B : List Row} (hA : A ≠ [])
    (hnr : rowsFrom B (latestDate A) ≠ []) :
    update_last_row_and_append_new_data A B =
      sortByTime (existingTrimmed A B (latestDate A) ++ rowsFrom B (latestDate A)) := by
  have hAe : ¬ (A.isEmpty = true) := by simp [List.isEmpty_iff, hA]
  unfold update_last_row_and_append_new_data
  rw [if_neg hAe, if_neg (by simp [hnr])]

theorem nodup_append_sorted {E nr : List Row} (hE : nodupTimes E) (hnr : nodupTimes nr)
    (hdisj : ∀ a ∈ E, ∀ b ∈ nr, a.time ≠ b.time) :
    nodupTimes (sortByTime (E ++ nr)) := by
  rw [nodupTimes_of_perm (sortByTime_perm _)]
  unfold nodupTimes
  rw [List.map_append, List.nodup_append]
  refine ⟨hE, hnr, ?_⟩
  intro t ht ht'
  obtain ⟨a, ha, rfl⟩ := List.mem_map.mp ht
  obtain ⟨b, hb, hba⟩ := List.mem_map.mp ht'
  exact hdisj a ha b hb hba.symm

/-! ## Claim C2: merge and duplicate timestamps -/

/-- C2 counterexample.  The claim states that for every pair of inputs A and
B the merge result contains no two rows with equal timestamp.  It is false:
when the fresh frame B itself carries two rows dated alike past the archive
boundary, both survive into the result.  Here A has one row at time 0 and B
two distinct rows at time 1; the merged frame has timestamps 0, 1, 1. -/
theorem merge_duplicate_timestamp_cex :
    ¬ nodupTimes (update_last_row_and_append_new_data
        [⟨"AAA", 0, 1, 1, 1, 1, 10⟩]
        [⟨"AAA", 1, 2, 2, 2, 2, 20⟩, ⟨"AAA", 1, 3, 3, 3, 3, 30⟩]) := by
  decide

/-- C2 amended: whenever the archive A and the fresh frame B each have
pairwise-distinct timestamps, the merge result has pairwise-distinct
timestamps.  The rows kept from A are dated strictly before the boundary
the fresh rows are taken from (or, when the fresh frame does not revise the
boundary date, strictly before every appended fresh row), so no timestamp
can repeat across the two parts. -/
theorem merge_nodupTimes (A B : List Row) (hA : nodupTimes A) (hB : nodupTimes B) :
    nodupTimes (update_last_row_and_append_new_data A B) := by
  by_cases hAnil : A = []
  · subst hAnil
    simpa [update_last_row_and_append_new_data] using hB
  · by_cases hnr : rowsFrom B (latestDate A) = []
    · rw [merge_eq_of_rowsFrom_nil hAnil hnr]
      exact hA
    · rw [merge_eq_of_rowsFrom_ne_nil hAnil hnr]
      have hubA : ∀ a ∈ A, a.time ≤ latestDate A := (latestDate_spec hAnil).2
      have hEnodup : nodupTimes (existingTrimmed A B (latestDate A)) := by
        unfold existingTrimmed
        split_ifs
        · exact hA
        · exact nodupTimes_filter _ hA
      have hnrnodup : nodupTimes (rowsFrom B (latestDate A)) := nodupTimes_filter _ hB
      refine nodup_append_sorted hEnodup hnrnodup ?_
      intro a ha b hb
      rcases mem_rowsFrom.mp hb with ⟨hbB, hbL⟩
      unfold existingTrimmed at ha
      split_ifs at ha with hsd
      · have haL : a.time ≤ latestDate A := hubA a ha
        have hbne : b.time ≠ latestDate A := by
          intro hbeq
          have : b ∈ sameDateRows B (latestDate A) := mem_sameDateRows.mpr ⟨hbB, hbeq⟩
          rw [List.isEmpty_iff.mp hsd] at this
          exact absurd this (List.not_mem_nil b)
        omega
      · have haA : a ∈ A := List.mem_of_mem_filter ha
        have hane : a.time ≠ latestDate A := by
          have := List.of_mem_filter ha
          simpa using this
        have haL : a.time ≤ latestDate A := hubA a haA
        omega

/-- C2 witness: the amended theorem applied to a concrete archive and fresh
frame with distinct timestamps. -/
theorem merge_nodupTimes_witness :
    nodupTimes [⟨"AAA", 0, 1, 1, 1, 1, 10⟩] ∧
      nodupTimes [⟨"AAA", 1, 2, 2, 2, 2, 20⟩] ∧
      nodupTimes (update_last_row_and_append_new_data
        [⟨"AAA", 0, 1, 1, 1, 1, 10⟩] [⟨"AAA", 1, 2, 2, 2, 2, 20⟩]) :=
  ⟨by decide, by decide,
    merge_nodupTimes [⟨"AAA", 0, 1, 1, 1, 1, 10⟩] [⟨"AAA", 1, 2, 2, 2, 2, 20⟩]
      (by decide) (by decide)⟩

/-! ## Claim C10: normalize_price_data frame effects -/

/-- C10: normalize_price_data returns a frame whose time, volume and ticker
columns are identical to the input's and of the same length; only the four
price columns can change.  The source operates on df.copy() and never
mutates its argument, which the pure translation reflects. -/
theorem normalize_preserves_frame (prec : Option ℕ) (df : List Row) (ticker : String) :
    (normalize_price_data prec df ticker).map Row.time = df.map Row.time ∧
    (normalize_price_data prec df ticker).map Row.volume = df.map Row.volume ∧
    (normalize_price_data prec df ticker).map Row.ticker = df.map Row.ticker ∧
    (normalize_price_data prec df ticker).length = df.length := by
  unfold normalize_price_data
  split_ifs with h1 h2
  · exact ⟨rfl, rfl, rfl, rfl⟩
  · exact ⟨rfl, rfl, rfl, rfl⟩
  · refine ⟨?_, ?_, ?_, by simp⟩ <;> simp [List.map_map, Function.comp_def]

/-! ## Claim C5: normalization idempotence -/

/-- C5 counterexample.  The claim states normalize(normalize(rows, symbol),
symbol) = normalize(rows, symbol) for every rows and symbol.  It is false
for any non-index symbol: each application unconditionally divides the
price columns by 1000, so the second application scales a close of 1000
down to 1 and then to 1/1000. -/
theorem normalize_double_scale_cex :
    normalize_price_data (some 6)
        (normalize_price_data (some 6) [⟨"AAA", 0, 1000, 1000, 1000, 1000, 10⟩] "AAA")
        "AAA" ≠
      normalize_price_data (some 6) [⟨"AAA", 0, 1000, 1000, 1000, 1000, 10⟩] "AAA" := by
  with_unfolding_all decide

/-- C5 amended: normalize_price_data is idempotent exactly on the market
index symbols (VNINDEX, HNXINDEX, UPCOMINDEX), where it is the identity;
for every other symbol a second application divides the already-scaled
prices by 1000 again. -/
theorem normalize_idempotent_on_indices (prec : Option ℕ) (df : List Row)
    (ticker : String) (h : ticker.toUpper ∈ market_indices) :
    normalize_price_data prec (normalize_price_data prec df ticker) ticker =
      normalize_price_data prec df ticker := by
  have hid : normalize_price_data prec df ticker = df := by
    unfold normalize_price_data
    by_cases h1 : df.isEmpty = true
    · rw [if_pos h1]
    · rw [if_neg h1, if_pos h]
  rw [hid]
  exact hid

/-- C5 witness: idempotence of the amended theorem at the VNINDEX symbol. -/
theorem normalize_idempotent_on_indices_witness :
    "VNINDEX".toUpper ∈ market_indices ∧
      normalize_price_data (some 6)
          (normalize_price_data (some 6) [⟨"VNINDEX", 0, 1200, 1210, 1190, 1205, 5⟩]
            "VNINDEX") "VNINDEX" =
        normalize_price_data (some 6) [⟨"VNINDEX", 0, 1200, 1210, 1190, 1205, 5⟩]
          "VNINDEX" :=
  ⟨by with_unfolding_all decide,
    normalize_idempotent_on_indices (some 6) [⟨"VNINDEX", 0, 1200, 1210, 1190, 1205, 5⟩]
      "VNINDEX" (by with_unfolding_all decide)⟩

/-! ## Claim C3: adjustment threshold boundary -/

/-- C3 counterexample.  The claim defines the boundary as: average ratio
greater than or equal to 1.02 gives the adjusted verdict.  The source
compares with strict greater-than (avg_ratio > 1.02), so at an average
ratio of exactly 51/50 = 1.02 the verdict is not adjusted.  Three matched
dates inside the comparison window, archived close 51 against fresh close
50 on each, give an average ratio of exactly 1.02 and verdict false. -/
theorem dividend_threshold_boundary_cex :
    check_for_dividend_simple true
        (some [⟨"BBB", 90, 50, 50, 50, 50, 10⟩, ⟨"BBB", 91, 50, 50, 50, 50, 10⟩,
               ⟨"BBB", 92, 50, 50, 50, 50, 10⟩])
        [⟨"BBB", 90, 51, 51, 51, 51, 10⟩, ⟨"BBB", 91, 51, 51, 51, 51, 10⟩,
         ⟨"BBB", 92, 51, 51, 51, 51, 10⟩] 100 = false := by
  with_unfolding_all decide

/-- C3 amended: the threshold comparison is strict, so at an average ratio
of exactly 1.02 the verdict is not adjusted; ratios 1.019 and 1.0 are not
adjusted either, and any average strictly above 1.02 (here 1.021) is
adjusted.  Each conjunct evaluates the detector on three matched in-window
dates with the stated archived/fresh close ratio. -/
theorem dividend_threshold_boundary :
    check_for_dividend_simple true
        (some [⟨"BBB", 90, 50, 50, 50, 50, 10⟩, ⟨"BBB", 91, 50, 50, 50, 50, 10⟩,
               ⟨"BBB", 92, 50, 50, 50, 50, 10⟩])
        [⟨"BBB", 90, 51, 51, 51, 51, 10⟩, ⟨"BBB", 91, 51, 51, 51, 51, 10⟩,
         ⟨"BBB", 92, 51, 51, 51, 51, 10⟩] 100 = false ∧
      check_for_dividend_simple true
        (some [⟨"BBB", 90, 1000, 1000, 1000, 1000, 10⟩, ⟨"BBB", 91, 1000, 1000, 1000, 1000, 10⟩,
               ⟨"BBB", 92, 1000, 1000, 1000, 1000, 10⟩])
        [⟨"BBB", 90, 1019, 1019, 1019, 1019, 10⟩, ⟨"BBB", 91, 1019, 1019, 1019, 1019, 10⟩,
         ⟨"BBB", 92, 1019, 1019, 1019, 1019, 10⟩] 100 = false ∧
      check_for_dividend_simple true
        (some [⟨"BBB", 90, 50, 50, 50, 50, 10⟩, ⟨"BBB", 91, 50, 50, 50, 50, 10⟩,
               ⟨"BBB", 92, 50, 50, 50, 50, 10⟩])
        [⟨"BBB", 90, 50, 50, 50, 50, 10⟩, ⟨"BBB", 91, 50, 50, 50, 50, 10⟩,
         ⟨"BBB", 92, 50, 50, 50, 50, 10⟩] 100 = false ∧
      check_for_dividend_simple true
        (some [⟨"BBB", 90, 1000, 1000, 1000, 1000, 10⟩, ⟨"BBB", 91, 1000, 1000, 1000, 1000, 10⟩,
               ⟨"BBB", 92, 1000, 1000, 1000, 1000, 10⟩])
        [⟨"BBB", 90, 1021, 1021, 1021, 1021, 10⟩, ⟨"BBB", 91, 1021, 1021, 1021, 1021, 10⟩,
         ⟨"BBB", 92, 1021, 1021, 1021, 1021, 10⟩] 100 = true := by
  refine ⟨by with_unfolding_all decide, by with_unfolding_all decide,
    by with_unfolding_all decide, by with_unfolding_all decide⟩

/-! ## Claim C6: insufficient overlap policy -/

/-- C6 counterexample.  The claim states that with fewer than 3 matched
dates the adjustment verdict is never adjusted, citing both detectors.  It
is false for smart_dividend_check_and_merge, whose loop needs only 2
overlapping dates: two overlapping dates with archived close 105 against
fresh close 100 (ratio 1.05) make the verdict fire. -/
theorem smart_dividend_two_overlap_cex :
    (overlappingDates
        [⟨"CCC", 10, 100, 100, 100, 100, 5⟩, ⟨"CCC", 11, 100, 100, 100, 100, 5⟩]
        [⟨"CCC", 10, 105, 105, 105, 105, 5⟩, ⟨"CCC", 11, 105, 105, 105, 105, 5⟩]).length
        = 2 ∧
      smartDividendDetected
        [⟨"CCC", 10, 105, 105, 105, 105, 5⟩, ⟨"CCC", 11, 105, 105, 105, 105, 5⟩]
        [⟨"CCC", 10, 100, 100, 100, 100, 5⟩, ⟨"CCC", 11, 100, 100, 100, 100, 5⟩] = true := by
  constructor
  · with_unfolding_all decide
  · with_unfolding_all decide

/-- C6 amended: check_for_dividend_simple indeed returns not-adjusted
whenever the inner join of the two comparison windows has fewer than 3
matched dates; smart_dividend_check_and_merge instead requires only 2
overlapping dates, and with fewer than 2 its verdict is not adjusted. -/
theorem insufficient_overlap_conservative :
    (∀ (fe : Bool) (api : Option (List Row)) (ex : List Row) (now : Int),
      (∀ apiL, api = some apiL →
        (innerJoinTime (apiL.filter (compareWindow now))
          (ex.filter (compareWindow now))).length < 3) →
      check_for_dividend_simple fe api ex now = false) ∧
    (∀ ex rc : List Row, (overlappingDates rc ex).length < 2 →
      smartDividendDetected ex rc = false) := by
  constructor
  · intro fe api ex now hm
    cases api with
    | none => cases fe <;> rfl
    | some apiL =>
      have hm' := hm apiL rfl
      cases fe
      · rfl
      · simp only [check_for_dividend_simple, Bool.not_true, Bool.false_eq_true,
          if_false]
        split_ifs <;> rfl
  · intro ex rc hov
    simp only [smartDividendDetected]
    rw [if_neg (by omega)]

/-- C6 witness: the amended theorem applied to concrete frames with no
matched dates at all. -/
theorem insufficient_overlap_conservative_witness :
    check_for_dividend_simple true (some [⟨"DDD", 90, 50, 50, 50, 50, 1⟩]) [] 100 = false ∧
      smartDividendDetected [⟨"DDD", 90, 50, 50, 50, 50, 1⟩] [] = false :=
  ⟨insufficient_overlap_conservative.1 true _ [] 100
      (by intro apiL h; cases h; decide),
    insufficient_overlap_conservative.2 [⟨"DDD", 90, 50, 50, 50, 50, 1⟩] [] (by decide)⟩

/-! ## Claim C1: archive preserved when the full re-download fails -/

/-- C1: in both script variants, when a dividend has been detected for a
symbol with a stored archive and the subsequent full-history re-download
fails (None) or returns no rows, the archive content is left unchanged.
First conjunct: smart_dividend_check_and_merge returns the existing frame,
which the caller then writes back verbatim.  Second conjunct: the main.py
path returns None from download_stock_data, and the persistence step of
main only overwrites the file for a non-None, non-empty frame.  Neither
variant deletes the stored archive before a successful re-download. -/
theorem full_resync_failure_preserves_archive :
    (∀ (ex rc : List Row) (fd : Option (List Row)),
        smartDividendDetected ex rc = true → (fd = none ∨ fd = some []) →
        smart_dividend_check_and_merge ex (some rc) fd = ex) ∧
    (∀ (tk : String) (ex : List Row) (ff incr : Option (List Row)) (g : Bool),
        (ff = none ∨ ff = some []) →
        persist_step ex (download_stock_data tk true true ex ff incr g) = ex) := by
  constructor
  · intro ex rc fd hdet hfd
    simp only [smart_dividend_check_and_merge]
    by_cases hrc : rc.isEmpty = true
    · rw [if_pos hrc]
    · rw [if_neg hrc, if_pos hdet]
      rcases hfd with rfl | rfl
      · rfl
      · rfl
  · intro tk ex ff incr g hff
    rcases hff with rfl | rfl
    · rfl
    · rfl

/-- C1 witness: a concrete archive with two rows at closes 105 against a
fresh frame at closes 100 (dividend detected), a failed full re-download,
and the archive comes back unchanged through both variants. -/
theorem full_resync_failure_preserves_archive_witness :
    smartDividendDetected
        [⟨"EEE", 10, 105, 105, 105, 105, 5⟩, ⟨"EEE", 11, 105, 105, 105, 105, 5⟩]
        [⟨"EEE", 10, 100, 100, 100, 100, 5⟩, ⟨"EEE", 11, 100, 100, 100, 100, 5⟩] = true ∧
      smart_dividend_check_and_merge
        [⟨"EEE", 10, 105, 105, 105, 105, 5⟩, ⟨"EEE", 11, 105, 105, 105, 105, 5⟩]
        (some [⟨"EEE", 10, 100, 100, 100, 100, 5⟩, ⟨"EEE", 11, 100, 100, 100, 100, 5⟩])
        none =
        [⟨"EEE", 10, 105, 105, 105, 105, 5⟩, ⟨"EEE", 11, 105, 105, 105, 105, 5⟩] ∧
      persist_step [⟨"EEE", 10, 105, 105, 105, 105, 5⟩]
        (download_stock_data "EEE" true true [⟨"EEE", 10, 105, 105, 105, 105, 5⟩]
          none none true) =
        [⟨"EEE", 10, 105, 105, 105, 105, 5⟩] :=
  ⟨by with_unfolding_all decide,
    full_resync_failure_preserves_archive.1
      [⟨"EEE", 10, 105, 105, 105, 105, 5⟩, ⟨"EEE", 11, 105, 105, 105, 105, 5⟩]
      [⟨"EEE", 10, 100, 100, 100, 100, 5⟩, ⟨"EEE", 11, 100, 100, 100, 100, 5⟩]
      none (by with_unfolding_all decide) (Or.inl rfl),
    full_resync_failure_preserves_archive.2 "EEE" [⟨"EEE", 10, 105, 105, 105, 105, 5⟩]
      none none true (Or.inl rfl)⟩

/-! ## Claim C9: batch endpoint usage policy -/

/-- C9 counterexample.  The claim states that symbols needing full history
are never fetched via a batch endpoint.  It is false: for daily granularity
with a configured range of at most 2 years, main routes the full-history
population through download_stock_data_batch, the VCI batch endpoint (a
range spanning 1 year shown here). -/
theorem full_history_batch_cex :
    full_history_endpoint "1D" 1 ≠ EndpointKind.perSymbol := by
  with_unfolding_all decide

/-- C9 amended: batch endpoints are used only under daily granularity; the
resume population always uses batch there, while the full-history
population uses batch exactly when the configured range spans at most 2
years, and per-symbol requests otherwise; sub-daily intervals always use
per-symbol requests, chunked yearly for 1H and monthly for 1m, each chunk
window lying within a single calendar year resp. month. -/
theorem batch_endpoint_policy :
    resume_endpoint "1D" = EndpointKind.batch ∧
    (∀ interval : String, interval ≠ "1D" →
      resume_endpoint interval = EndpointKind.perSymbol ∧
        ∀ ys : ℚ, full_history_endpoint interval ys = EndpointKind.perSymbol) ∧
    (∀ ys : ℚ, 2 < ys → full_history_endpoint "1D" ys = EndpointKind.perSymbol) ∧
    (∀ ys : ℚ, ys ≤ 2 → full_history_endpoint "1D" ys = EndpointKind.batch) ∧
    download_full_data_plan "1H" = FetchPlan.yearlyChunks ∧
    download_full_data_plan "1m" = FetchPlan.monthlyChunks ∧
    (∀ sd ed : Date, ∀ w ∈ hourly_chunk_windows sd ed, w.1.year = w.2.year) ∧
    (∀ sd ed : Date, ∀ w ∈ minute_chunk_windows sd ed, monthIndex w.1 = monthIndex w.2) := by
  refine ⟨rfl, ?_, ?_, ?_, rfl, rfl, ?_, ?_⟩
  · intro interval hiv
    refine ⟨?_, fun ys => ?_⟩
    · unfold resume_endpoint
      rw [if_neg hiv]
    · unfold full_history_endpoint
      rw [if_pos (Or.inr hiv)]
  · intro ys hys
    unfold full_history_endpoint
    rw [if_pos (Or.inl hys)]
  · intro ys hys
    unfold full_history_endpoint
    rw [if_neg]
    push_neg
    exact ⟨hys, rfl⟩
  · intro sd ed w hw
    unfold hourly_chunk_windows at hw
    obtain ⟨y, _, rfl⟩ := List.mem_map.mp hw
    dsimp only
    split_ifs with h1 h2 h3 <;> simp_all
  · intro sd ed w hw
    unfold minute_chunk_windows at hw
    obtain ⟨i, _, rfl⟩ := List.mem_map.mp hw
    dsimp only
    split_ifs with h1 h2 h3 <;> simp only [monthIndex] at * <;> omega

/-- C9 witness: the amended theorem applied at a sub-daily interval, a long
daily range, a short daily range, and a concrete hourly chunk window. -/
theorem batch_endpoint_policy_witness :
    resume_endpoint "1H" = EndpointKind.perSymbol ∧
      full_history_endpoint "1D" 3 = EndpointKind.perSymbol ∧
      full_history_endpoint "1D" 1 = EndpointKind.batch ∧
      (Date.mk 2023 5 10).year = (Date.mk 2023 12 31).year :=
  ⟨(batch_endpoint_policy.2.1 "1H" (by decide)).1,
    batch_endpoint_policy.2.2.1 3 (by norm_num),
    batch_endpoint_policy.2.2.2.1 1 (by norm_num),
    batch_endpoint_policy.2.2.2.2.2.2.1 ⟨2023, 5, 10⟩ ⟨2024, 2, 1⟩
      (⟨2023, 5, 10⟩, ⟨2023, 12, 31⟩) (by decide)⟩

/-! ## Claim C8: the fetch layer and raised exceptions -/

set_option maxRecDepth 4000 in
/-- C4: the claim states that in any rolling 60-second window at most N
permits are granted.  The code violates it: _enforce_rate_limit appends the
pre-sleep value current_time after sleeping, so the true issuance moment of
a delayed permit is never recorded.  With rate_limit_per_minute = 1 and
three back-to-back calls, call 1 is granted at t = 0 and recorded at 0;
call 2 sleeps 60.1 s, is granted at t = 60.1, but is recorded at 0; call 3
then finds both stale records outside the window and is granted immediately
at t = 60.1.  Two permits are granted inside the window (60, 120], against
the bound N = 1.  The side-effect clause of the spec (records issuance time
after permit is granted) names the intended behaviour the code misses. -/
theorem rate_limiter_window_overflow :
    limiter_grants 1 [0, 0, 0] = [0, 601 / 10, 601 / 10] ∧
      ((limiter_grants 1 [0, 0, 0]).filter
        (fun g => decide (60 < g ∧ g ≤ 120))).length = 2 ∧
      2 > 1 := by
  refine ⟨by with_unfolding_all decide, by with_unfolding_all decide, by norm_num⟩

/-! ## Claim C7: merge idempotence -/

theorem sortByTime_filter (p : Row → Bool) (l : List Row) :
    (sortByTime l).filter p = sortByTime (l.filter p) :=
  insertionSort_filter p l

theorem merge_fixpoint_of_boundary {M B : List Row} {Lb : Int}
    (hMne : M ≠ []) (hMsorted : M.Sorted timeLE)
    (hMub : ∀ x ∈ M, x.time ≤ Lb) (hLM : latestDate M = Lb)
    (hsd : sameDateRows B Lb ≠ []) (hrsd : rowsFrom B Lb = sameDateRows B Lb)
    (hMf : M.filter (fun r => r.time = Lb) = sameDateRows B Lb) :
    update_last_row_and_append_new_data M B = M := by
  have hnr2 : rowsFrom B (latestDate M) ≠ [] := by rw [hLM, hrsd]; exact hsd
  rw [merge_eq_of_rowsFrom_ne_nil hMne hnr2, hLM]
  have hET : existingTrimmed M B Lb = M.filter (fun r => r.time ≠ Lb) := by
    unfold existingTrimmed
    rw [if_neg (by simp [List.isEmpty_iff, hsd])]
  rw [hET, hrsd, ← hMf, ← sorted_filter_split Lb M hMsorted hMub]
  exact sortByTime_eq_of_sorted hMsorted

/-- C7 counterexample.  The claim quantifies over any archive A and fresh
batch B.  It is false for the empty archive with an unsorted fresh batch:
merge([], B) returns B verbatim, but merging again sorts, so
merge(merge([], B), B) comes back time-ordered and differs from
merge([], B). -/
theorem merge_idempotence_cex :
    update_last_row_and_append_new_data
        (update_last_row_and_append_new_data []
          [⟨"FFF", 2, 1, 1, 1, 1, 1⟩, ⟨"FFF", 1, 1, 1, 1, 1, 1⟩])
        [⟨"FFF", 2, 1, 1, 1, 1, 1⟩, ⟨"FFF", 1, 1, 1, 1, 1, 1⟩] ≠
      update_last_row_and_append_new_data []
        [⟨"FFF", 2, 1, 1, 1, 1, 1⟩, ⟨"FFF", 1, 1, 1, 1, 1, 1⟩] := by
  decide

/-- C7 amended: merge is idempotent in the fresh batch for every non-empty
archive A (the precondition the spec itself places on the merge input) and
every fresh batch B, provided A and B each have pairwise-distinct
timestamps (the archive invariant of the data model): merge(merge(A, B), B)
= merge(A, B).  After the first merge the result is time-sorted and its
rows at the new boundary date are exactly the fresh rows at that date, so
the second merge removes and re-appends precisely those rows and sorts a
sorted frame.  The duplicate-free hypotheses keep both sort inputs free of
equal time keys: the trimmed archive rows all lie strictly below the
appended fresh rows in the first merge, and the boundary rows re-appended
by the second merge reduce to a single fresh row, so the unstable pandas
quicksort and the stable model sort produce the same frames and the
statement is warranted by the program, not only by the model.  With
duplicate boundary timestamps the program leaves the order of the tied
rows implementation-defined, so frame-equal idempotence is not claimed
there. -/
theorem merge_idempotent (A B : List Row) (hA : A ≠ [])
    (hAnodup : nodupTimes A) (hBnodup : nodupTimes B) :
    update_last_row_and_append_new_data (update_last_row_and_append_new_data A B) B =
      update_last_row_and_append_new_data A B := by
  by_cases hnr : rowsFrom B (latestDate A) = []
  · rw [merge_eq_of_rowsFrom_nil hA hnr, merge_eq_of_rowsFrom_nil hA hnr]
  · have hM := merge_eq_of_rowsFrom_ne_nil hA hnr
    rw [hM]
    -- the boundary of the merged frame is the top date of the appended rows
    obtain ⟨b0, hb0mem, hb0time⟩ :=
      List.mem_map.mp (latestDate_spec hnr).1
    have hb0B : b0 ∈ B := (mem_rowsFrom.mp hb0mem).1
    have hLLb : latestDate A ≤ latestDate (rowsFrom B (latestDate A)) :=
      hb0time ▸ (mem_rowsFrom.mp hb0mem).2
    have hnrub : ∀ x ∈ rowsFrom B (latestDate A),
        x.time ≤ latestDate (rowsFrom B (latestDate A)) := (latestDate_spec hnr).2
    generalize hLb : latestDate (rowsFrom B (latestDate A)) = Lb at hb0time hLLb hnrub
    have hEub : ∀ a ∈ existingTrimmed A B (latestDate A), a.time ≤ latestDate A :=
      fun a ha => time_le_latestDate hA (mem_existingTrimmed ha)
    have hMperm :
        (sortByTime (existingTrimmed A B (latestDate A) ++ rowsFrom B (latestDate A))).Perm
          (existingTrimmed A B (latestDate A) ++ rowsFrom B (latestDate A)) :=
      sortByTime_perm _
    have hMub : ∀ x ∈ sortByTime (existingTrimmed A B (latestDate A) ++
        rowsFrom B (latestDate A)), x.time ≤ Lb := by
      intro x hx
      rcases List.mem_append.mp (hMperm.mem_iff.mp hx) with hxE | hxnr
      · exact le_trans (hEub x hxE) hLLb
      · exact hnrub x hxnr
    have hb0M : b0 ∈ sortByTime (existingTrimmed A B (latestDate A) ++
        rowsFrom B (latestDate A)) :=
      hMperm.mem_iff.mpr (List.mem_append.mpr (Or.inr hb0mem))
    refine merge_fixpoint_of_boundary (List.ne_nil_of_mem hb0M) (sortByTime_sorted _)
      hMub (latestDate_eq (List.mem_map.mpr ⟨b0, hb0M, hb0time⟩) hMub) ?_ ?_ ?_
    · exact List.ne_nil_of_mem (mem_sameDateRows.mpr ⟨hb0B, hb0time⟩)
    · unfold rowsFrom sameDateRows
      apply List.filter_congr
      intro x hxB
      have hiff : Lb ≤ x.time ↔ x.time = Lb := by
        constructor
        · intro hle
          have hxnr : x ∈ rowsFrom B (latestDate A) :=
            mem_rowsFrom.mpr ⟨hxB, le_trans hLLb hle⟩
          exact le_antisymm (hnrub x hxnr) hle
        · intro heq
          exact le_of_eq heq.symm
      exact decide_eq_decide.mpr hiff
    · rw [sortByTime_filter, List.filter_append]
      have hEf : (existingTrimmed A B (latestDate A)).filter
          (fun r => r.time = Lb) = [] := by
        rw [List.filter_eq_nil_iff]
        intro a haE
        simp only [decide_eq_true_eq]
        intro haLb
        have haL : a.time ≤ latestDate A := hEub a haE
        have hsdL : ¬ (sameDateRows B (latestDate A)).isEmpty = true := by
          simp only [List.isEmpty_iff]
          exact List.ne_nil_of_mem (mem_sameDateRows.mpr ⟨hb0B, by omega⟩)
        have hEeq : existingTrimmed A B (latestDate A) =
            A.filter (fun r => r.time ≠ latestDate A) := by
          unfold existingTrimmed
          rw [if_neg hsdL]
        rw [hEeq] at haE
        have hane := List.of_mem_filter haE
        simp only [decide_eq_true_eq] at hane
        omega
      rw [hEf, List.nil_append]
      have hnrf : (rowsFrom B (latestDate A)).filter (fun r => r.time = Lb) =
          sameDateRows B Lb := by
        unfold rowsFrom sameDateRows
        rw [List.filter_filter]
        apply List.filter_congr
        intro x hxB
        by_cases hx : x.time = Lb
        · simp [hx, hLLb]
        · simp [hx]
      rw [hnrf]
      exact sortByTime_eq_of_sorted
        (sorted_of_const_time (fun x hx => (mem_sameDateRows.mp hx).2))

/-- C7 witness: the amended theorem applied to a concrete one-row archive
and a duplicate-free two-row fresh batch extending it. -/
theorem merge_idempotent_witness :
    ([⟨"GGG", 0, 1, 1, 1, 1, 1⟩] : List Row) ≠ [] ∧
      nodupTimes [⟨"GGG", 0, 1, 1, 1, 1, 1⟩] ∧
      nodupTimes [⟨"GGG", 0, 2, 2, 2, 2, 2⟩, ⟨"GGG", 1, 3, 3, 3, 3, 3⟩] ∧
      update_last_row_and_append_new_data
          (update_last_row_and_append_new_data [⟨"GGG", 0, 1, 1, 1, 1, 1⟩]
            [⟨"GGG", 0, 2, 2, 2, 2, 2⟩, ⟨"GGG", 1, 3, 3, 3, 3, 3⟩])
          [⟨"GGG", 0, 2, 2, 2, 2, 2⟩, ⟨"GGG", 1, 3, 3, 3, 3, 3⟩] =
        update_last_row_and_append_new_data [⟨"GGG", 0, 1, 1, 1, 1, 1⟩]
          [⟨"GGG", 0, 2, 2, 2, 2, 2⟩, ⟨"GGG", 1, 3, 3, 3, 3, 3⟩] :=
  ⟨by decide, by decide, by decide,
    merge_idempotent [⟨"GGG", 0, 1, 1, 1, 1, 1⟩]
      [⟨"GGG", 0, 2, 2, 2, 2, 2⟩, ⟨"GGG", 1, 3, 3, 3, 3, 3⟩] (by decide)
      (by decide) (by decide)⟩

end AIPriceAction
